import Mathlib

/-!
# Verification of the deterministic train/eval dataset partitioner

Shallow embedding of the dataset-partitioning core of the repository
(`src/data/data_cleaning.py` and `src/scripts/data_cleaning.py`):

* `deterministic_top_k` — pick top-k URLs by MD5 hex digest (deterministic);
* the locked-eval-set reconciliation performed by the `__main__` block of
  `src/data/data_cleaning.py` (filter the persisted list to the current
  universe, top up to the target size);
* the membership-based split labeling (`url in eval_set`);
* the stateless ratio-based `assign_split` of `src/scripts/data_cleaning.py`.

Python byte strings are modelled as `List Nat` (each element a byte value),
The Python `str` type as Lean `String`, Python ints as `Nat`/`Int`, and the float
`train_ratio` as an exact rational `ℚ` (float rounding is out of scope).
`hashlib.md5(...).hexdigest()` is embedded as a full implementation of the
MD5 algorithm (RFC 1321) over byte lists, producing the lowercase hex digest.
The stable Python `sorted(..., key=...)` is embedded as the Mathlib
`List.insertionSort`, which is likewise a stable sort for the same total
preorder, hence extensionally identical to the Python sort.
-/

/-- UTF-8 encoding of a single Unicode code point, as byte values
(mirrors the Python `str.encode("utf-8")` per character). -/
def utf8Char (n : Nat) : List Nat :=
  if n < 128 then [n]
  else if n < 2048 then [192 + n / 64, 128 + n % 64]
  else if n < 65536 then [224 + n / 4096, 128 + n / 64 % 64, 128 + n % 64]
  else [240 + n / 262144, 128 + n / 4096 % 64, 128 + n / 64 % 64, 128 + n % 64]

/-- UTF-8 encoding of a string as a list of byte values
(mirrors the Python call `u.encode("utf-8")`). -/
def utf8Bytes (s : String) : List Nat :=
  (s.data.map (fun c => utf8Char c.toNat)).flatten

/-- The 64 per-round additive constants of MD5 (RFC 1321),
`K[i] = floor(2^32 * |sin(i+1)|)`. -/
def md5K : List Nat :=
  [0xd76aa478, 0xe8c7b756, 0x242070db, 0xc1bdceee,
   0xf57c0faf, 0x4787c62a, 0xa8304613, 0xfd469501,
   0x698098d8, 0x8b44f7af, 0xffff5bb1, 0x895cd7be,
   0x6b901122, 0xfd987193, 0xa679438e, 0x49b40821,
   0xf61e2562, 0xc040b340, 0x265e5a51, 0xe9b6c7aa,
   0xd62f105d, 0x02441453, 0xd8a1e681, 0xe7d3fbc8,
   0x21e1cde6, 0xc33707d6, 0xf4d50d87, 0x455a14ed,
   0xa9e3e905, 0xfcefa3f8, 0x676f02d9, 0x8d2a4c8a,
   0xfffa3942, 0x8771f681, 0x6d9d6122, 0xfde5380c,
   0xa4beea44, 0x4bdecfa9, 0xf6bb4b60, 0xbebfbc70,
   0x289b7ec6, 0xeaa127fa, 0xd4ef3085, 0x04881d05,
   0xd9d4d039, 0xe6db99e5, 0x1fa27cf8, 0xc4ac5665,
   0xf4292244, 0x432aff97, 0xab9423a7, 0xfc93a039,
   0x655b59c3, 0x8f0ccc92, 0xffeff47d, 0x85845dd1,
   0x6fa87e4f, 0xfe2ce6e0, 0xa3014314, 0x4e0811a1,
   0xf7537e82, 0xbd3af235, 0x2ad7d2bb, 0xeb86d391]

/-- The 64 per-round left-rotation amounts of MD5 (RFC 1321). -/
def md5Shift : List Nat :=
  [7, 12, 17, 22, 7, 12, 17, 22, 7, 12, 17, 22, 7, 12, 17, 22,
   5, 9, 14, 20, 5, 9, 14, 20, 5, 9, 14, 20, 5, 9, 14, 20,
   4, 11, 16, 23, 4, 11, 16, 23, 4, 11, 16, 23, 4, 11, 16, 23,
   6, 10, 15, 21, 6, 10, 15, 21, 6, 10, 15, 21, 6, 10, 15, 21]

/-- Left rotation of a 32-bit word (input assumed `< 2^32`). -/
def rotl32 (x c : Nat) : Nat :=
  x * 2 ^ c % 4294967296 + x / 2 ^ (32 - c)

/-- One of the 64 MD5 rounds: `m` is the current 16-word message block,
`(a, b, c, d)` the working state, `i` the round index. -/
def md5Round (m : List Nat) (st : Nat × Nat × Nat × Nat) (i : Nat) :
    Nat × Nat × Nat × Nat :=
  let a := st.1
  let b := st.2.1
  let c := st.2.2.1
  let d := st.2.2.2
  let f :=
    if i < 16 then (b &&& c) ||| ((4294967295 - b) &&& d)
    else if i < 32 then (d &&& b) ||| ((4294967295 - d) &&& c)
    else if i < 48 then b ^^^ c ^^^ d
    else c ^^^ (b ||| (4294967295 - d))
  let g :=
    if i < 16 then i
    else if i < 32 then (5 * i + 1) % 16
    else if i < 48 then (3 * i + 5) % 16
    else 7 * i % 16
  let f2 := (f + a + md5K.getD i 0 + m.getD g 0) % 4294967296
  (d, (b + rotl32 f2 (md5Shift.getD i 0)) % 4294967296, b, c)

/-- Decode the `j`-th little-endian 32-bit word of a 64-byte chunk. -/
def leWord (chunk : List Nat) (j : Nat) : Nat :=
  chunk.getD (4 * j) 0 + 256 * chunk.getD (4 * j + 1) 0 +
    65536 * chunk.getD (4 * j + 2) 0 + 16777216 * chunk.getD (4 * j + 3) 0

/-- The sixteen 32-bit message words of one 64-byte chunk. -/
def chunkWords (chunk : List Nat) : List Nat :=
  (List.range 16).map (leWord chunk)

/-- Process one 64-byte chunk: run the 64 rounds and add the result
into the running digest state. -/
def md5Chunk (chunk : List Nat) (h : Nat × Nat × Nat × Nat) :
    Nat × Nat × Nat × Nat :=
  let m := chunkWords chunk
  let r := (List.range 64).foldl (md5Round m) h
  ((h.1 + r.1) % 4294967296, (h.2.1 + r.2.1) % 4294967296,
   (h.2.2.1 + r.2.2.1) % 4294967296, (h.2.2.2 + r.2.2.2) % 4294967296)

/-- MD5 padding: append `0x80`, zero bytes up to 56 mod 64, then the
original bit length as a 64-bit little-endian quantity. -/
def md5Pad (msg : List Nat) : List Nat :=
  let n := msg.length
  msg ++ [128] ++ List.replicate ((119 - n % 64) % 64) 0 ++
    (List.range 8).map (fun i => 8 * n / 256 ^ i % 256)

/-- Fold the chunk compression over `fuel` consecutive 64-byte chunks. -/
def md5Blocks : Nat → List Nat → Nat × Nat × Nat × Nat → Nat × Nat × Nat × Nat
  | 0, _, h => h
  | n + 1, msg, h => md5Blocks n (msg.drop 64) (md5Chunk (msg.take 64) h)

/-- The MD5 digest state (A, B, C, D) of a byte-list message. -/
def md5Digest (msg : List Nat) : Nat × Nat × Nat × Nat :=
  let p := md5Pad msg
  md5Blocks (p.length / 64) p (0x67452301, 0xefcdab89, 0x98badcfe, 0x10325476)

/-- Lowercase hex character for a value `0 ≤ n < 16`: digits are the
ASCII codes 48–57, letters the ASCII codes 97–102. -/
def hexChar (n : Nat) : Char :=
  if n < 10 then Char.ofNat (48 + n) else Char.ofNat (87 + n)

/-- The four little-endian bytes of a 32-bit word. -/
def wordLEBytes (w : Nat) : List Nat :=
  [w % 256, w / 256 % 256, w / 65536 % 256, w / 16777216 % 256]

/-- Lowercase hex string of a byte list, two hex digits per byte. -/
def bytesToHex (bs : List Nat) : List Char :=
  bs.foldr (fun b acc => hexChar (b / 16) :: hexChar (b % 16) :: acc) []

/-- The digest call `hashlib.md5(u.encode("utf-8")).hexdigest()`: the lowercase
32-character hex digest of the UTF-8 bytes of a string. -/
def md5_hex (u : String) : String :=
  let d := md5Digest (utf8Bytes u)
  String.mk (bytesToHex (wordLEBytes d.1 ++ wordLEBytes d.2.1 ++
    wordLEBytes d.2.2.1 ++ wordLEBytes d.2.2.2))

/-- Boolean lexicographic order (by Unicode code point) on character
lists; structural-recursive so that it evaluates in the kernel.
This is the comparison Python uses on `str` values such as hex digests. -/
def charsLe : List Char → List Char → Bool
  | [], _ => true
  | _ :: _, [] => false
  | c :: cs, d :: ds =>
    if c.toNat < d.toNat then true
    else if c.toNat = d.toNat then charsLe cs ds
    else false

/-- Boolean lexicographic order on strings (the Python `<=` on `str`). -/
def strLe (a b : String) : Bool := charsLe a.data b.data

/-- The key relation of `sorted(..., key=lambda t: t[1])`: compare
(url, digest) pairs by the digest component only. -/
def keyLe (t s : String × String) : Prop := strLe t.2 s.2 = true

instance : DecidableRel keyLe := fun t s =>
  inferInstanceAs (Decidable (strLe t.2 s.2 = true))

/-- The Python `xs[:k]` slice for an arbitrary (possibly negative) `k`:
a non-negative `k` keeps the first `k` elements, a negative `k` drops
the last `|k|` elements (stopping at the empty list). -/
def pySlice (k : Int) (xs : List α) : List α :=
  if 0 ≤ k then xs.take k.toNat else xs.take (xs.length - (-k).toNat)

/-- The function `deterministic_top_k` of `src/data/data_cleaning.py`: pair each URL
with its MD5 hex digest, stable-sort the pairs by the digest, slice the
first `k`, and project the URLs back out. -/
def deterministic_top_k (urls : List String) (k : Int) : List String :=
  (pySlice k (List.insertionSort keyLe
    (urls.map (fun u => (u, md5_hex u))))).map Prod.fst

/-- The locked-eval-set reconciliation of the `__main__` block of
`src/data/data_cleaning.py` (the script hard-codes `targetSize = 15`;
it is a parameter here): keep the previously persisted entries still in
the universe, and if fewer than `targetSize` remain, top up from the
remaining URLs with `deterministic_top_k`.  The first-run branch
(`saved_eval = deterministic_top_k(urls, 15)`) is the
`previousLocked = []` instance of this function. -/
def reconcileLockedEvalSet (urls previousLocked : List String)
    (targetSize : Int) : List String :=
  let kept := previousLocked.filter (fun u => urls.contains u)
  if (kept.length : Int) < targetSize then
    let remaining := urls.filter (fun u => !kept.contains u)
    kept ++ deterministic_top_k remaining (targetSize - kept.length)
  else kept

/-- The membership-based labeling of the processing loop of
`src/data/data_cleaning.py`: `"eval"` if the URL is in the locked eval
set, else `"train"`. -/
def assignSplit (url : String) (lockedEvalSet : List String) : String :=
  if lockedEvalSet.contains url then "eval" else "train"

/-- Value of a lowercase hex digit character (used by `int(h, 16)`). -/
def hexDigitVal (c : Char) : Nat :=
  if 48 ≤ c.toNat ∧ c.toNat ≤ 57 then c.toNat - 48
  else if 97 ≤ c.toNat ∧ c.toNat ≤ 102 then c.toNat - 87
  else 0

/-- The Python `int(h, 16)` on a lowercase hex string. -/
def hexToNat (s : String) : Nat :=
  s.data.foldl (fun acc c => 16 * acc + hexDigitVal c) 0

/-- The function `assign_split` of `src/scripts/data_cleaning.py`: hash the URL,
map `int(h, 16) % 1000 / 1000.0` into `[0, 1)`, and label `"train"`
exactly when that value is below `train_ratio`.  The Python float
ratio and quotient are modelled as exact rationals. -/
def assign_split (url : String) (train_ratio : ℚ) : String :=
  let h := md5_hex url
  let val : ℚ := (hexToNat h % 1000 : ℕ) / 1000
  if val < train_ratio then "train" else "eval"

/-- Order on identifiers by the lexicographic order of their MD5 hex
digests (the order the spec asks `selectDeterministicTopK` to use). -/
def hashLe (a b : String) : Prop := strLe (md5_hex a) (md5_hex b) = true

instance : DecidableRel hashLe := fun a b =>
  inferInstanceAs (Decidable (strLe (md5_hex a) (md5_hex b) = true))

/-- Reference definition, following the words of the spec for
`selectDeterministicTopK`: sort the identifiers themselves by the
lexicographic (hex-string) order of their MD5 digests and take the
first `k`. -/
def selectDeterministicTopK (urls : List String) (k : Nat) : List String :=
  (List.insertionSort hashLe urls).take k

/-! ## Order properties of the lexicographic comparison -/

theorem charsLe_cons_iff {x y : List Char} {c d : Char} :
    charsLe (c :: x) (d :: y) = true ↔
      c.toNat < d.toNat ∨ (c.toNat = d.toNat ∧ charsLe x y = true) := by
  simp only [charsLe]
  split_ifs with h1 h2
  · simp [h1]
  · simp [h1, h2]
  · simp [h1, h2]

theorem charsLe_total : ∀ a b : List Char, charsLe a b = true ∨ charsLe b a = true
  | [], _ => Or.inl rfl
  | _ :: _, [] => Or.inr rfl
  | c :: cs, d :: ds => by
    rcases Nat.lt_trichotomy c.toNat d.toNat with h | h | h
    · exact Or.inl (charsLe_cons_iff.mpr (Or.inl h))
    · rcases charsLe_total cs ds with hr | hr
      · exact Or.inl (charsLe_cons_iff.mpr (Or.inr ⟨h, hr⟩))
      · exact Or.inr (charsLe_cons_iff.mpr (Or.inr ⟨h.symm, hr⟩))
    · exact Or.inr (charsLe_cons_iff.mpr (Or.inl h))

theorem charsLe_trans : ∀ a b c : List Char,
    charsLe a b = true → charsLe b c = true → charsLe a c = true
  | [], _, _, _, _ => rfl
  | _ :: _, [], _, h, _ => by simp [charsLe] at h
  | _ :: _, _ :: _, [], _, h => by simp [charsLe] at h
  | x :: xs, y :: ys, z :: zs, h1, h2 => by
    rcases charsLe_cons_iff.mp h1 with hx | ⟨hx, hx2⟩ <;>
      rcases charsLe_cons_iff.mp h2 with hy | ⟨hy, hy2⟩
    · exact charsLe_cons_iff.mpr (Or.inl (hx.trans hy))
    · exact charsLe_cons_iff.mpr (Or.inl (hy ▸ hx))
    · exact charsLe_cons_iff.mpr (Or.inl (hx ▸ hy))
    · exact charsLe_cons_iff.mpr
        (Or.inr ⟨hx.trans hy, charsLe_trans xs ys zs hx2 hy2⟩)

theorem charsLe_antisymm : ∀ a b : List Char,
    charsLe a b = true → charsLe b a = true → a = b
  | [], [], _, _ => rfl
  | [], _ :: _, _, h => by simp [charsLe] at h
  | _ :: _, [], h, _ => by simp [charsLe] at h
  | x :: xs, y :: ys, h1, h2 => by
    rcases charsLe_cons_iff.mp h1 with hx | ⟨hx, hx2⟩ <;>
      rcases charsLe_cons_iff.mp h2 with hy | ⟨hy, hy2⟩ <;>
        try omega
    have hxy : x = y := Char.eq_of_val_eq (UInt32.toNat.inj hx)
    rw [hxy, charsLe_antisymm xs ys hx2 hy2]

theorem strLe_total (a b : String) : strLe a b = true ∨ strLe b a = true :=
  charsLe_total a.data b.data

theorem strLe_trans {a b c : String} (h1 : strLe a b = true)
    (h2 : strLe b c = true) : strLe a c = true :=
  charsLe_trans a.data b.data c.data h1 h2

theorem strLe_antisymm {a b : String} (h1 : strLe a b = true)
    (h2 : strLe b a = true) : a = b :=
  String.toList_inj.mp (charsLe_antisymm a.data b.data h1 h2)

instance : IsTotal (String × String) keyLe :=
  ⟨fun a b => strLe_total a.2 b.2⟩

instance : IsTrans (String × String) keyLe :=
  ⟨fun _ _ _ h1 h2 => strLe_trans h1 h2⟩

/-- Two lists of (url, digest) pairs that are permutations of each
other, both sorted by digest, with no two distinct members sharing a
digest, are equal. -/
theorem sorted_eq_of_perm_of_snd_inj :
    ∀ {l₁ l₂ : List (String × String)}, l₁.Perm l₂ →
    List.Sorted keyLe l₁ → List.Sorted keyLe l₂ →
    (∀ x ∈ l₁, ∀ y ∈ l₁, x.2 = y.2 → x = y) → l₁ = l₂
  | [], l₂, hp, _, _, _ => hp.nil_eq
  | a :: t₁, [], hp, _, _, _ => by simpa using hp.length_eq
  | a :: t₁, b :: t₂, hp, hs₁, hs₂, hinj => by
    have hb₁ : b ∈ a :: t₁ := hp.mem_iff.mpr (List.mem_cons_self b t₂)
    have ha₂ : a ∈ b :: t₂ := hp.mem_iff.mp (List.mem_cons_self a t₁)
    have hab : a = b := by
      rcases List.mem_cons.mp hb₁ with hb | hb
      · exact hb.symm
      · rcases List.mem_cons.mp ha₂ with ha | ha
        · exact ha
        · have h1 : keyLe a b := (List.sorted_cons.mp hs₁).1 b hb
          have h2 : keyLe b a := (List.sorted_cons.mp hs₂).1 a ha
          exact hinj a (List.mem_cons_self a t₁) b (List.mem_cons_of_mem a hb)
            (strLe_antisymm h1 h2)
    subst hab
    have ht : t₁.Perm t₂ := hp.cons_inv
    have := sorted_eq_of_perm_of_snd_inj ht (List.sorted_cons.mp hs₁).2
      (List.sorted_cons.mp hs₂).2
      (fun x hx y hy hxy =>
        hinj x (List.mem_cons_of_mem a hx) y (List.mem_cons_of_mem a hy) hxy)
    rw [this]

/-! ## Sorting pairs by digest versus sorting identifiers directly -/

theorem orderedInsert_map_pair (a : String) :
    ∀ t : List String,
    List.orderedInsert keyLe (a, md5_hex a) (t.map fun u => (u, md5_hex u)) =
      (List.orderedInsert hashLe a t).map fun u => (u, md5_hex u)
  | [] => rfl
  | b :: t => by
    simp only [List.map_cons, List.orderedInsert]
    by_cases h : hashLe a b
    · rw [if_pos (show keyLe (a, md5_hex a) (b, md5_hex b) from h), if_pos h]
      simp
    · rw [if_neg (show ¬keyLe (a, md5_hex a) (b, md5_hex b) from h), if_neg h,
        List.map_cons, orderedInsert_map_pair a t]

theorem insertionSort_map_pair :
    ∀ l : List String,
    List.insertionSort keyLe (l.map fun u => (u, md5_hex u)) =
      (List.insertionSort hashLe l).map fun u => (u, md5_hex u)
  | [] => rfl
  | a :: l => by
    simp only [List.map_cons, List.insertionSort]
    rw [insertionSort_map_pair l, orderedInsert_map_pair]

/-- Taking `n` of the sorted pair list and projecting the URLs is the
same as taking `n` of the URLs sorted directly by digest order. -/
theorem top_k_eq_take (urls : List String) (n : Nat) :
    ((List.insertionSort keyLe
        (urls.map fun u => (u, md5_hex u))).take n).map Prod.fst =
      (List.insertionSort hashLe urls).take n := by
  rw [insertionSort_map_pair, ← List.map_take, List.map_map]
  have hcomp : (Prod.fst ∘ fun u : String => (u, md5_hex u)) = id := rfl
  rw [hcomp, List.map_id]

/-- Every member of `deterministic_top_k urls k` is a member of `urls`. -/
theorem mem_of_mem_top_k {u : String} {urls : List String} {k : Int}
    (h : u ∈ deterministic_top_k urls k) : u ∈ urls := by
  unfold deterministic_top_k at h
  rcases List.mem_map.mp h with ⟨p, hp, rfl⟩
  have hp2 : p ∈ List.insertionSort keyLe (urls.map fun u => (u, md5_hex u)) := by
    unfold pySlice at hp
    split at hp <;> exact List.take_subset _ _ hp
  have hp3 := (List.perm_insertionSort keyLe _).subset hp2
  rcases List.mem_map.mp hp3 with ⟨v, hv, rfl⟩
  exact hv

/-- The length of `deterministic_top_k urls k` for non-negative `k`. -/
theorem top_k_length (urls : List String) (k : Int) (hk : 0 ≤ k) :
    (deterministic_top_k urls k).length = min k.toNat urls.length := by
  unfold deterministic_top_k pySlice
  rw [if_pos hk, List.length_map, List.length_take,
    List.length_insertionSort, List.length_map]

/-! ## Claims -/

/-- C1: Locked-set stability invariant: the filtered `kept` list is a
prefix of the reconciled locked eval list (so every previously locked
element still in the universe is retained, in relative order, ahead of
any newly added element), and when `kept` already has at least
`targetSize` elements the result is exactly `kept`. -/
theorem C1_locked_set_stability (urls previousLocked : List String)
    (targetSize : Int) :
    (reconcileLockedEvalSet urls previousLocked targetSize).take
        (previousLocked.filter (fun u => urls.contains u)).length =
      previousLocked.filter (fun u => urls.contains u) ∧
    (targetSize ≤ ((previousLocked.filter (fun u => urls.contains u)).length : Int) →
      reconcileLockedEvalSet urls previousLocked targetSize =
        previousLocked.filter (fun u => urls.contains u)) := by
  unfold reconcileLockedEvalSet
  by_cases h : (((previousLocked.filter (fun u => urls.contains u)).length : Int)) < targetSize
  · rw [if_pos h]
    exact ⟨List.take_left _ _, fun ht => absurd h (by omega)⟩
  · rw [if_neg h]
    exact ⟨List.take_length _, fun _ => rfl⟩

/-- Witness for C1 at a concrete input: a previously locked list
`["b", "a"]` fully inside the universe `["a", "b"]` with
`targetSize = 1` is returned unchanged. -/
theorem C1_witness :
    reconcileLockedEvalSet ["a", "b"] ["b", "a"] 1 =
      List.filter (fun u => (["a", "b"] : List String).contains u) ["b", "a"] :=
  (C1_locked_set_stability ["a", "b"] ["b", "a"] 1).2 (by decide)

/-- C3: the pair-sort-then-slice of the implementation equals the reference
definition (sort the identifiers by the lexicographic order of their
MD5 hex digests, take the first `k`) for every non-negative `k`. -/
theorem C3_top_k_definition (urls : List String) (k : Int) (hk : 0 ≤ k) :
    deterministic_top_k urls k = selectDeterministicTopK urls k.toNat := by
  unfold deterministic_top_k selectDeterministicTopK pySlice
  rw [if_pos hk]
  exact top_k_eq_take urls k.toNat

/-- Witness for C3 at a concrete input. -/
theorem C3_witness :
    deterministic_top_k ["a", "b", "c", "d", "e"] 2 =
      selectDeterministicTopK ["a", "b", "c", "d", "e"] 2 :=
  C3_top_k_definition ["a", "b", "c", "d", "e"] 2 (by decide)

/-- C4: size and subset correctness of top-k selection: for
non-negative `k` the result has length `min k (number of inputs)` (in
particular everything is returned when `k` exceeds the count), and
every element of the result is an element of the input. -/
theorem C4_size_subset (urls : List String) (k : Int) (hk : 0 ≤ k) :
    (deterministic_top_k urls k).length = min k.toNat urls.length ∧
      ∀ u ∈ deterministic_top_k urls k, u ∈ urls :=
  ⟨top_k_length urls k hk, fun _ h => mem_of_mem_top_k h⟩

/-- Witness for C4 at a concrete input (`k` exceeding the count). -/
theorem C4_witness :
    (deterministic_top_k ["a", "b"] 5).length =
        min ((5 : Int)).toNat (["a", "b"] : List String).length ∧
      ∀ u ∈ deterministic_top_k ["a", "b"] 5, u ∈ (["a", "b"] : List String) :=
  C4_size_subset ["a", "b"] 5 (by decide)

/-- C10: for negative `k`, `deterministic_top_k` does not fail: by
Python negative-slice semantics it returns the MD5-hex-sorted
sequence with its last `min(|k|, len)` elements removed, and for
`-len < k < 0` the result is a non-empty proper prefix of the sorted
sequence. -/
theorem C10_negative_k (urls : List String) (k : Int) (hk : k < 0) :
    deterministic_top_k urls k =
        selectDeterministicTopK urls (urls.length - k.natAbs) ∧
      (-(urls.length : Int) < k → deterministic_top_k urls k ≠ [] ∧
        (deterministic_top_k urls k).length < urls.length) := by
  have h1 : deterministic_top_k urls k =
      selectDeterministicTopK urls (urls.length - k.natAbs) := by
    unfold deterministic_top_k selectDeterministicTopK pySlice
    rw [if_neg (by omega)]
    have h2 : (List.insertionSort keyLe
        (urls.map fun u => (u, md5_hex u))).length = urls.length := by
      rw [List.length_insertionSort, List.length_map]
    have h3 : (-k).toNat = k.natAbs := by omega
    rw [h2, h3]
    exact top_k_eq_take urls _
  refine ⟨h1, fun hlen => ?_⟩
  have hsort : (List.insertionSort hashLe urls).length = urls.length :=
    List.length_insertionSort hashLe urls
  constructor
  · rw [h1]
    unfold selectDeterministicTopK
    apply List.length_pos.mp
    rw [List.length_take, hsort]
    omega
  · rw [h1]
    unfold selectDeterministicTopK
    rw [List.length_take, hsort]
    omega

/-- Witness for C10 at a concrete input: `k = -1` on a 3-element list
keeps the first two elements of the hash-sorted sequence. -/
theorem C10_witness :
    deterministic_top_k ["a", "b", "c"] (-1) =
      selectDeterministicTopK ["a", "b", "c"]
        ((["a", "b", "c"] : List String).length - (-1 : Int).natAbs) :=
  (C10_negative_k ["a", "b", "c"] (-1) (by decide)).1

/-- C6: Partition completeness of the locked-set split: every
identifier in the universe gets exactly one of the two labels, the
label is `"eval"` exactly for members of the locked eval set, and the
set of eval-labeled identifiers of the universe equals the locked set
(no hashing is involved: `assignSplit` is a pure membership lookup). -/
theorem C6_partition_completeness (U E : List String)
    (hE : ∀ e ∈ E, e ∈ U) :
    (∀ i ∈ U, (assignSplit i E = "train" ∨ assignSplit i E = "eval") ∧
      ¬(assignSplit i E = "train" ∧ assignSplit i E = "eval")) ∧
    (∀ i, assignSplit i E = "eval" ↔ i ∈ E) ∧
    (∀ i, (i ∈ U ∧ assignSplit i E = "eval") ↔ i ∈ E) := by
  have key : ∀ i, assignSplit i E = "eval" ↔ i ∈ E := by
    intro i
    unfold assignSplit
    by_cases h : E.contains i
    · rw [if_pos h]
      simpa using h
    · rw [if_neg h]
      constructor
      · intro hc
        exact absurd hc (by decide)
      · intro hm
        exact absurd (by simpa using hm) h
  refine ⟨fun i _ => ?_, key, fun i => ?_⟩
  · unfold assignSplit
    by_cases h : E.contains i
    · rw [if_pos h]
      exact ⟨Or.inr rfl, by simp⟩
    · rw [if_neg h]
      exact ⟨Or.inl rfl, by simp⟩
  · constructor
    · intro ⟨_, hev⟩
      exact (key i).mp hev
    · intro hm
      exact ⟨hE i hm, (key i).mpr hm⟩

/-- Witness for C6 at a concrete input: with universe `["a", "b"]` and
locked eval set `["b"]`, the member `"b"` is labeled `"eval"`. -/
theorem C6_witness : assignSplit "b" ["b"] = "eval" :=
  ((C6_partition_completeness ["a", "b"] ["b"] (by decide)).2.1 "b").mpr
    (by decide)

/-- C7: Ratio-policy definition and self-consistency: `assign_split`
labels `"train"` exactly when `(int(md5 hex, 16) mod 1000) / 1000` is
strictly below the ratio, labels `"eval"` otherwise, and — being a pure
function of `(identifier, ratio)` alone — returns the same label on
repeated calls, independent of any other identifiers. -/
theorem C7_ratio_policy (i : String) (r : ℚ) :
    (assign_split i r = "train" ↔
      ((hexToNat (md5_hex i) % 1000 : ℕ) : ℚ) / 1000 < r) ∧
    (assign_split i r = "train" ∨ assign_split i r = "eval") ∧
    assign_split i r = assign_split i r := by
  unfold assign_split
  by_cases h : ((hexToNat (md5_hex i) % 1000 : ℕ) : ℚ) / 1000 < r
  · rw [if_pos h]
    exact ⟨⟨fun _ => h, fun _ => rfl⟩, Or.inl rfl, rfl⟩
  · rw [if_neg h]
    exact ⟨⟨fun hc => absurd hc (by decide), fun hc => absurd hc h⟩,
      Or.inr rfl, rfl⟩

set_option maxRecDepth 40000 in
/-- C8 counterexample: no configuration validation exists.  With
`trainRatio = 3/2 ∉ [0,1)` the ratio policy still produces a split
(`"train"`), and with the negative `targetSize`/`k = -1` the top-k
selection still produces a sliced list — neither input is rejected. -/
theorem C8_counterexample :
    (1 : ℚ) ≤ 3 / 2 ∧ assign_split "a" (3 / 2) = "train" ∧
      (-1 : Int) < 0 ∧ deterministic_top_k ["a", "b", "c"] (-1) = ["a", "c"] := by
  refine ⟨by norm_num, ?_, by decide, by decide⟩
  unfold assign_split
  rw [if_pos ?cond]
  case cond =>
    have h : hexToNat (md5_hex "a") % 1000 = 497 := by decide
    rw [h]
    norm_num

/-- C8 amended: neither script validates its parameters; both
operations are total.  A ratio `≥ 1` labels every identifier
`"train"`, a ratio `< 0` labels every identifier `"eval"`, and a
negative `k` is accepted via Python negative-slice semantics,
yielding a list of length `len − |k|` instead of an error. -/
theorem C8_no_validation (i : String) (r : ℚ) (urls : List String) (k : Int) :
    (1 ≤ r → assign_split i r = "train") ∧
    (r < 0 → assign_split i r = "eval") ∧
    (k < 0 → (deterministic_top_k urls k).length = urls.length - k.natAbs) := by
  have hm : hexToNat (md5_hex i) % 1000 < 1000 := Nat.mod_lt _ (by norm_num)
  have hval0 : (0 : ℚ) ≤ ((hexToNat (md5_hex i) % 1000 : ℕ) : ℚ) / 1000 :=
    div_nonneg (Nat.cast_nonneg _) (by norm_num)
  have hval1 : ((hexToNat (md5_hex i) % 1000 : ℕ) : ℚ) / 1000 < 1 :=
    (div_lt_one (by norm_num)).mpr (by exact_mod_cast hm)
  refine ⟨fun hr => ?_, fun hr => ?_, fun hk => ?_⟩
  · unfold assign_split
    rw [if_pos (lt_of_lt_of_le hval1 hr)]
  · unfold assign_split
    rw [if_neg (fun hc => absurd (hc.trans hr) (not_lt.mpr hval0))]
  · unfold deterministic_top_k pySlice
    rw [if_neg (by omega), List.length_map, List.length_take,
      List.length_insertionSort, List.length_map]
    omega

set_option maxRecDepth 40000 in
/-- Witness for the amended C8 at concrete inputs. -/
theorem C8_witness :
    assign_split "a" 1 = "train" ∧ assign_split "a" (-1) = "eval" ∧
      (deterministic_top_k ["a", "b"] (-1)).length =
        (["a", "b"] : List String).length - (-1 : Int).natAbs :=
  ⟨(C8_no_validation "a" 1 [] 0).1 le_rfl,
   (C8_no_validation "a" (-1) [] 0).2.1 (by simp),
   (C8_no_validation "a" 0 ["a", "b"] (-1)).2.2 (by decide)⟩

/-- Every element the Python slice keeps was in the sliced list. -/
theorem pySlice_subset (k : Int) (xs : List α) : ∀ a ∈ pySlice k xs, a ∈ xs := by
  intro a ha
  unfold pySlice at ha
  split at ha <;> exact List.take_subset _ _ ha

/-- Selection by `deterministic_top_k` from a duplicate-free list is duplicate-free. -/
theorem top_k_nodup {urls : List String} (h : urls.Nodup) (k : Int) :
    (deterministic_top_k urls k).Nodup := by
  unfold deterministic_top_k
  have hpairs : (urls.map fun u => (u, md5_hex u)).Nodup :=
    h.map fun a b hab => congrArg Prod.fst hab
  have hsort : (List.insertionSort keyLe
      (urls.map fun u => (u, md5_hex u))).Nodup :=
    ((List.perm_insertionSort keyLe _).nodup_iff).mpr hpairs
  have hslice : (pySlice k (List.insertionSort keyLe
      (urls.map fun u => (u, md5_hex u)))).Nodup := by
    unfold pySlice
    split <;> exact (List.take_sublist _ _).nodup hsort
  have hform : ∀ p ∈ pySlice k (List.insertionSort keyLe
      (urls.map fun u => (u, md5_hex u))), p.2 = md5_hex p.1 := by
    intro p hp
    have hmem : p ∈ urls.map fun u => (u, md5_hex u) :=
      (List.perm_insertionSort keyLe _).subset (pySlice_subset _ _ p hp)
    rcases List.mem_map.mp hmem with ⟨v, _, rfl⟩
    rfl
  exact hslice.map_on fun x hx y hy hxy =>
    Prod.ext hxy (by rw [hform x hx, hform y hy, hxy])

/-- C9 counterexample: the `kept` computation does **not** deduplicate.
A persisted locked list `["a", "a"]` with a duplicate entry still in
the universe `["a"]` survives reconciliation with both copies, so the
written-back list contains duplicates. -/
theorem C9_counterexample :
    ¬ (["a", "a"] : List String).Nodup ∧
      ¬ (reconcileLockedEvalSet ["a"] ["a", "a"] 15).Nodup := by
  constructor <;> decide

/-- C9 amended: the `kept` computation silently filters persisted
entries no longer in the universe (and never raises — the function is
total), but performs no deduplication; the reconciled list is
duplicate-free only when the universe and the persisted locked list
already are. -/
theorem C9_nodup (urls previousLocked : List String) (t : Int)
    (hu : urls.Nodup) (hp : previousLocked.Nodup) :
    (reconcileLockedEvalSet urls previousLocked t).Nodup := by
  unfold reconcileLockedEvalSet
  by_cases h : (((previousLocked.filter fun u => urls.contains u).length : Int)) < t
  · rw [if_pos h]
    refine List.Nodup.append (hp.filter _) (top_k_nodup (hu.filter _) _) ?_
    intro a ha hb
    have hmem := mem_of_mem_top_k hb
    rw [List.mem_filter] at hmem
    rw [List.mem_filter] at ha
    have hd : a ∉ previousLocked ∨ a ∉ urls := by simpa using hmem.2
    rcases hd with hd | hd
    · exact hd ha.1
    · exact hd (by simpa using ha.2)
  · rw [if_neg h]
    exact hp.filter _

set_option maxRecDepth 40000 in
/-- Witness for the amended C9 at a concrete input. -/
theorem C9_witness : (reconcileLockedEvalSet ["a", "b", "c"] ["b"] 2).Nodup :=
  C9_nodup ["a", "b", "c"] ["b"] 2 (by decide) (by decide)

set_option maxRecDepth 100000 in
/-- C2 counterexample: input-order independence and lexicographic
tie-breaking both fail.  The two 72-character ASCII identifiers below
(a published MD5 text collision) have equal MD5 hex digests but are
distinct; feeding the two permutations of the same two-element set to
`deterministic_top_k` yields different sequences — the stable sort
breaks the tie by input order, not by the lexicographic
order of the identifiers (the `A` variant precedes the `E` variant lexicographically, yet
the second input order returns the `E` variant first). -/
theorem C2_counterexample :
    md5_hex "TEXTCOLLBYfGiJUETHQ4hAcKSMd5zYpgqf1YRDhkmxHkhPWptrkoyz28wnI9V0aHeAuaKnak" =
        md5_hex "TEXTCOLLBYfGiJUETHQ4hEcKSMd5zYpgqf1YRDhkmxHkhPWptrkoyz28wnI9V0aHeAuaKnak" ∧
      ("TEXTCOLLBYfGiJUETHQ4hAcKSMd5zYpgqf1YRDhkmxHkhPWptrkoyz28wnI9V0aHeAuaKnak" : String) ≠
        "TEXTCOLLBYfGiJUETHQ4hEcKSMd5zYpgqf1YRDhkmxHkhPWptrkoyz28wnI9V0aHeAuaKnak" ∧
      strLe "TEXTCOLLBYfGiJUETHQ4hAcKSMd5zYpgqf1YRDhkmxHkhPWptrkoyz28wnI9V0aHeAuaKnak"
          "TEXTCOLLBYfGiJUETHQ4hEcKSMd5zYpgqf1YRDhkmxHkhPWptrkoyz28wnI9V0aHeAuaKnak" = true ∧
      deterministic_top_k
          ["TEXTCOLLBYfGiJUETHQ4hAcKSMd5zYpgqf1YRDhkmxHkhPWptrkoyz28wnI9V0aHeAuaKnak",
           "TEXTCOLLBYfGiJUETHQ4hEcKSMd5zYpgqf1YRDhkmxHkhPWptrkoyz28wnI9V0aHeAuaKnak"] 2 =
        ["TEXTCOLLBYfGiJUETHQ4hAcKSMd5zYpgqf1YRDhkmxHkhPWptrkoyz28wnI9V0aHeAuaKnak",
         "TEXTCOLLBYfGiJUETHQ4hEcKSMd5zYpgqf1YRDhkmxHkhPWptrkoyz28wnI9V0aHeAuaKnak"] ∧
      deterministic_top_k
          ["TEXTCOLLBYfGiJUETHQ4hEcKSMd5zYpgqf1YRDhkmxHkhPWptrkoyz28wnI9V0aHeAuaKnak",
           "TEXTCOLLBYfGiJUETHQ4hAcKSMd5zYpgqf1YRDhkmxHkhPWptrkoyz28wnI9V0aHeAuaKnak"] 2 =
        ["TEXTCOLLBYfGiJUETHQ4hEcKSMd5zYpgqf1YRDhkmxHkhPWptrkoyz28wnI9V0aHeAuaKnak",
         "TEXTCOLLBYfGiJUETHQ4hAcKSMd5zYpgqf1YRDhkmxHkhPWptrkoyz28wnI9V0aHeAuaKnak"] := by
  refine ⟨by decide, by decide, by decide, by decide, by decide⟩

/-- C2 amended: input-order independence holds whenever the MD5 hex
digests are injective on the elements of the input (no collisions inside
the set): any two permutation-equivalent inputs then produce the same
output sequence for every `k`.  Under a collision the tie goes to the
earlier input position (stable sort), not to lexicographic order. -/
theorem C2_order_independence (l₁ l₂ : List String) (k : Int)
    (hperm : l₁.Perm l₂)
    (hinj : ∀ a ∈ l₁, ∀ b ∈ l₁, md5_hex a = md5_hex b → a = b) :
    deterministic_top_k l₁ k = deterministic_top_k l₂ k := by
  unfold deterministic_top_k
  have hsorteq : List.insertionSort keyLe (l₁.map fun u => (u, md5_hex u)) =
      List.insertionSort keyLe (l₂.map fun u => (u, md5_hex u)) := by
    apply sorted_eq_of_perm_of_snd_inj
    · exact ((List.perm_insertionSort keyLe _).trans
        (hperm.map _)).trans (List.perm_insertionSort keyLe _).symm
    · exact List.sorted_insertionSort keyLe _
    · exact List.sorted_insertionSort keyLe _
    · intro x hx y hy hxy
      have hx2 := (List.perm_insertionSort keyLe _).subset hx
      have hy2 := (List.perm_insertionSort keyLe _).subset hy
      rcases List.mem_map.mp hx2 with ⟨a, ha, rfl⟩
      rcases List.mem_map.mp hy2 with ⟨b, hb, rfl⟩
      rw [hinj a ha b hb hxy]
  rw [hsorteq]

set_option maxRecDepth 40000 in
/-- Witness for the amended C2 at a concrete collision-free input. -/
theorem C2_witness :
    deterministic_top_k ["a", "b"] 2 = deterministic_top_k ["b", "a"] 2 :=
  C2_order_independence ["a", "b"] ["b", "a"] 2 (by decide) (by decide)

/-- Zeta-reduced unfolding of `reconcileLockedEvalSet`. -/
theorem reconcile_def (urls prev : List String) (t : Int) :
    reconcileLockedEvalSet urls prev t =
      if (((prev.filter fun u => urls.contains u).length : Int)) < t then
        (prev.filter fun u => urls.contains u) ++
          deterministic_top_k
            (urls.filter fun u => !(prev.filter fun x => urls.contains x).contains u)
            (t - (prev.filter fun u => urls.contains u).length)
      else prev.filter fun u => urls.contains u := rfl

/-- Every member of the reconciled locked list is in the universe. -/
theorem mem_of_mem_reconcile {u : String} {urls prev : List String} {t : Int}
    (h : u ∈ reconcileLockedEvalSet urls prev t) : u ∈ urls := by
  rw [reconcile_def] at h
  split at h
  · rcases List.mem_append.mp h with h | h
    · simpa using (List.mem_filter.mp h).2
    · have h2 := mem_of_mem_top_k h
      rw [List.mem_filter] at h2
      exact h2.1
  · simpa using (List.mem_filter.mp h).2

/-- When `k` is at least the input length the top-k selection is a
permutation of the whole input. -/
theorem top_k_all {urls : List String} {k : Int}
    (hk : (urls.length : Int) ≤ k) : (deterministic_top_k urls k).Perm urls := by
  have hk0 : 0 ≤ k := le_trans (by positivity) hk
  unfold deterministic_top_k pySlice
  rw [if_pos hk0, List.take_of_length_le (by
    rw [List.length_insertionSort, List.length_map]; omega)]
  have hperm := (List.perm_insertionSort keyLe
    (urls.map fun u => (u, md5_hex u))).map Prod.fst
  refine hperm.trans ?_
  rw [List.map_map]
  have hcomp : (Prod.fst ∘ fun u : String => (u, md5_hex u)) = id := rfl
  rw [hcomp, List.map_id]

/-- If the reconciled list is still shorter than the target, it has
absorbed the whole universe. -/
theorem mem_reconcile_of_short {urls prev : List String} {t : Int}
    (hlen : ((reconcileLockedEvalSet urls prev t).length : Int) < t) :
    ∀ u ∈ urls, u ∈ reconcileLockedEvalSet urls prev t := by
  intro u hu
  rw [reconcile_def] at hlen ⊢
  by_cases h : (((prev.filter fun x => urls.contains x).length : Int)) < t
  · rw [if_pos h] at hlen ⊢
    by_cases hin : u ∈ prev.filter fun x => urls.contains x
    · exact List.mem_append.mpr (Or.inl hin)
    · refine List.mem_append.mpr (Or.inr ?_)
      have hrem : u ∈ urls.filter
          fun x => !(prev.filter fun y => urls.contains y).contains x := by
        rw [List.mem_filter]
        refine ⟨hu, ?_⟩
        cases hcon : (prev.filter fun y => urls.contains y).contains u with
        | false => rfl
        | true =>
          have hm : u ∈ prev ∧ u ∈ urls := by simpa using hcon
          exact absurd (List.mem_filter.mpr ⟨hm.1, by simpa using hm.2⟩) hin
      rw [List.length_append] at hlen
      have he := top_k_length
        (urls.filter fun x => !(prev.filter fun y => urls.contains y).contains x)
        (t - (prev.filter fun x => urls.contains x).length) (by omega)
      have hall : (((urls.filter
          fun x => !(prev.filter fun y => urls.contains y).contains x).length : Int)) ≤
          t - (prev.filter fun x => urls.contains x).length := by
        rw [Nat.min_def] at he
        split at he <;> omega
      exact (top_k_all hall).mem_iff.mpr hrem
  · rw [if_neg h] at hlen ⊢
    exact absurd hlen (by omega)

/-- Rerunning the reconciliation with an unchanged universe and the
written-back locked list returns the locked list unchanged. -/
theorem reconcile_idempotent (urls prev : List String) (t : Int) :
    reconcileLockedEvalSet urls (reconcileLockedEvalSet urls prev t) t =
      reconcileLockedEvalSet urls prev t := by
  have hkept : (reconcileLockedEvalSet urls prev t).filter
      (fun u => urls.contains u) = reconcileLockedEvalSet urls prev t :=
    List.filter_eq_self.mpr fun a ha => by simpa using mem_of_mem_reconcile ha
  rw [reconcile_def urls (reconcileLockedEvalSet urls prev t) t, hkept]
  by_cases hlen : (((reconcileLockedEvalSet urls prev t).length : Int)) < t
  · rw [if_pos hlen]
    have hrem : urls.filter
        (fun x => !(reconcileLockedEvalSet urls prev t).contains x) = [] :=
      List.filter_eq_nil_iff.mpr fun a ha => by
        simpa using mem_reconcile_of_short hlen a ha
    rw [hrem]
    have hnil : deterministic_top_k []
        (t - (reconcileLockedEvalSet urls prev t).length) = [] := by
      unfold deterministic_top_k pySlice
      split <;> simp
    rw [hnil, List.append_nil]
  · rw [if_neg hlen]

/-- Size of the reconciled list when the kept entries do not already
exceed the target and both inputs are duplicate-free. -/
theorem reconcile_length (urls prev : List String) (t : Int)
    (hu : urls.Nodup) (hp : prev.Nodup)
    (hkt : (((prev.filter fun u => urls.contains u).length : Int)) ≤ t) :
    (reconcileLockedEvalSet urls prev t).length = min t.toNat urls.length := by
  set kept := prev.filter fun u => urls.contains u with hkeq
  have hkn : kept.Nodup := hp.filter _
  have hsub1 : (urls.filter fun u => kept.contains u) ⊆ kept := fun x hx => by
    have h2 := List.mem_filter.mp hx
    simpa using h2.2
  have hsub2 : kept ⊆ urls.filter fun u => kept.contains u := fun x hx => by
    rw [List.mem_filter]
    have hxf := List.mem_filter.mp hx
    exact ⟨by simpa using hxf.2, by simpa using hx⟩
  have hlen1 : (urls.filter fun u => kept.contains u).length = kept.length :=
    Nat.le_antisymm (List.subperm_of_subset (hu.filter _) hsub1).length_le
      (List.subperm_of_subset hkn hsub2).length_le
  have hpart := (List.filter_append_perm (fun u => kept.contains u) urls).length_eq
  rw [List.length_append, hlen1] at hpart
  have hbridge : (prev.filter fun u => urls.contains u).length = kept.length := rfl
  rw [reconcile_def]
  by_cases hlt : ((kept.length : Int)) < t
  · rw [if_pos hlt, List.length_append]
    have he := top_k_length (urls.filter fun u => !kept.contains u)
      (t - kept.length) (by omega)
    rw [he, Nat.min_def, Nat.min_def]
    split_ifs <;> omega
  · rw [if_neg hlt, Nat.min_def]
    split_ifs <;> omega

/-- C5 (amended): reconciliation postcondition.  The reconciled locked
list is a subset of the universe; the step is idempotent, so rerunning
with an unchanged universe and the written-back list returns it
unchanged (determinism itself is definitional: the step is a pure
function of `(universe, previousLocked, targetSize)`); and the size
equals `min(targetSize, len(universe))` provided the kept entries do
not already exceed the target and universe and locked list are
duplicate-free — without that proviso the locked set is never shrunk,
so its size can stay above `targetSize` (see the counterexample). -/
theorem C5_reconcile_postcondition (urls prev : List String) (t : Int) :
    (∀ u ∈ reconcileLockedEvalSet urls prev t, u ∈ urls) ∧
    reconcileLockedEvalSet urls (reconcileLockedEvalSet urls prev t) t =
      reconcileLockedEvalSet urls prev t ∧
    (urls.Nodup → prev.Nodup →
      (((prev.filter fun u => urls.contains u).length : Int)) ≤ t →
      (reconcileLockedEvalSet urls prev t).length = min t.toNat urls.length) :=
  ⟨fun _ h => mem_of_mem_reconcile h, reconcile_idempotent urls prev t,
   fun hu hp hkt => reconcile_length urls prev t hu hp hkt⟩

/-- C5 counterexample: with universe `["a", "b"]` (large enough for
`targetSize = 1`) and previously locked list `["a", "b"]`, the
reconciled list keeps both entries, so its size is `2 ≠
min(targetSize, len(universe)) = 1` — the design never shrinks the
locked set, contradicting the unconditional size clause. -/
theorem C5_counterexample :
    2 ≤ (["a", "b"] : List String).length ∧
      (reconcileLockedEvalSet ["a", "b"] ["a", "b"] 1).length ≠
        min ((1 : Int)).toNat (["a", "b"] : List String).length := by
  constructor <;> decide

set_option maxRecDepth 40000 in
/-- Witness for the amended C5 at a concrete input. -/
theorem C5_witness :
    (reconcileLockedEvalSet ["a", "b", "c"] ["b"] 2).length =
      min ((2 : Int)).toNat (["a", "b", "c"] : List String).length :=
  (C5_reconcile_postcondition ["a", "b", "c"] ["b"] 2).2.2 (by decide)
    (by decide) (by decide)
